import Mathlib

/-!
Verification of the LearnMon vocabulary-drilling tool (src/main.cpp).

Strings are modelled as lists of bytes (`List Nat`, each element a byte value),
matching `std::string`.  User-perceived characters are byte lists produced by
the UTF-8 segmenter.  Randomness (`std::default_random_engine` driving
`uniform_int_distribution` and `std::ranges::shuffle`) is modelled by
quantifying over the drawn values: an arbitrary substitution budget in the
distribution's range, an arbitrary permutation of the shuffled vector, and an
arbitrary stream of alphabet picks.  Console interaction is modelled by a list
of input lines; engine loops consume it and report a terminal outcome, or a
distinguished "no more input" outcome when the finite list runs out while the
C++ loop would block on `std::getline`.
-/

/-- Bytewise `std::tolower` in the default "C" locale: only ASCII A-Z map. -/
def toLowerByte (b : Nat) : Nat :=
  if 65 ≤ b ∧ b ≤ 90 then b + 32 else b

/-- `std::ranges::transform(s, ..., tolower)` over a byte string. -/
def toLowerStr (s : List Nat) : List Nat :=
  s.map toLowerByte

/-- `std::isspace` bytes skipped by `std::stoi`: space and 0x09-0x0D. -/
def isSpaceByte (b : Nat) : Bool :=
  b = 32 || (9 ≤ b && b ≤ 13)

/-- ASCII decimal digit bytes. -/
def isDigitByte (b : Nat) : Bool :=
  48 ≤ b && b ≤ 57

/-- Value of a list of ASCII digit bytes, most significant first. -/
def digitsVal (ds : List Nat) : Nat :=
  ds.foldl (fun acc d => acc * 10 + (d - 48)) 0

/-- `std::stoi` on a byte string: skip leading whitespace, optional sign,
then a maximal run of decimal digits (trailing junk ignored).  `none` models
the thrown `invalid_argument` (no digits) or `out_of_range` (outside the
32-bit `int` range). -/
def stoiBytes (s : List Nat) : Option Int :=
  let s1 := s.dropWhile (fun b => isSpaceByte b)
  let sign : Int := match s1 with
    | 43 :: _ => 1
    | 45 :: _ => -1
    | _ => 1
  let s2 : List Nat := match s1 with
    | 43 :: r => r
    | 45 :: r => r
    | r => r
  let ds := s2.takeWhile (fun b => isDigitByte b)
  if ds.isEmpty then none
  else
    let v : Int := sign * (digitsVal ds : Int)
    if v < -(2 ^ 31) ∨ (2 ^ 31 - 1 : Int) < v then none else some v

/-- Byte list of an ASCII string literal (each char fits in one byte). -/
def ascii (s : String) : List Nat :=
  s.data.map (fun c => c.toNat)

/-- `split(s, delimiter)` from src/main.cpp lines 148-157: cut the byte
string at every occurrence of the delimiter; the final remainder is always
emitted, so the result is never empty. -/
def splitCpp : List Nat → Nat → List (List Nat)
  | [], _ => [[]]
  | b :: rest, d =>
    if b = d then [] :: splitCpp rest d
    else
      match splitCpp rest d with
      | [] => [[b]]
      | t :: ts => (b :: t) :: ts

/-- Interleave the tokens with the delimiter byte (the claim-side join used
to state the split/join round trip). -/
def joinWithByte (d : Nat) : List (List Nat) → List Nat
  | [] => []
  | [t] => t
  | t :: ts => t ++ d :: joinWithByte d ts

/-- Byte length of the character starting at lead byte `b`, from the
leading-byte tests in `split_word_to_chars` (src/main.cpp lines 159-181);
the final else branch is the malformed-lead fallback consuming one byte. -/
def charLen (b : Nat) : Nat :=
  if b &&& 0x80 = 0 then 1
  else if b &&& 0xE0 = 0xC0 then 2
  else if b &&& 0xF0 = 0xE0 then 3
  else if b &&& 0xF8 = 0xF0 then 4
  else 1

/-- Fuel-indexed worker for `split_word_to_chars`: one step consumes
`charLen b` bytes (`s.substr(i, n)` clamps at the end of the string, hence
the `take`/`drop`).  Each step consumes at least one byte, so fuel equal to
the byte length always suffices. -/
def splitCharsF : Nat → List Nat → List (List Nat)
  | _, [] => []
  | 0, _ :: _ => []
  | fuel + 1, b :: rest =>
    (b :: rest.take (charLen b - 1)) :: splitCharsF fuel (rest.drop (charLen b - 1))

/-- `split_word_to_chars` (src/main.cpp lines 159-181). -/
def splitChars (bs : List Nat) : List (List Nat) :=
  splitCharsF bs.length bs

/-- UTF-8 continuation byte. -/
def isContB (b : Nat) : Bool :=
  0x80 ≤ b && b ≤ 0xBF

/-- Well-formed encoding of one code point (claim-side, RFC 3629 lead-byte
ranges; overlong/surrogate code positions are not excluded, so every strictly
valid UTF-8 character satisfies this). -/
def isUtf8Char (c : List Nat) : Bool :=
  match c with
  | [b] => b ≤ 0x7F
  | [b, c1] => (0xC2 ≤ b && b ≤ 0xDF) && isContB c1
  | [b, c1, c2] => (0xE0 ≤ b && b ≤ 0xEF) && isContB c1 && isContB c2
  | [b, c1, c2, c3] => (0xF0 ≤ b && b ≤ 0xF4) && isContB c1 && isContB c2 && isContB c3
  | _ => false

/-- A byte that matches none of the four leading-byte patterns of
`split_word_to_chars` (the code's malformed-lead fallback case). -/
def isInvalidLead (b : Nat) : Bool :=
  !(b &&& 0x80 = 0 : Bool) && !(b &&& 0xE0 = 0xC0 : Bool)
    && !(b &&& 0xF0 = 0xE0 : Bool) && !(b &&& 0xF8 = 0xF0 : Bool)

/-- Does byte string `c` occur at the very start of `w` (byte-for-byte)? -/
def leadsWith : List Nat → List Nat → Bool
  | [], _ => true
  | _ :: _, [] => false
  | c :: cs, b :: bs => if c = b then leadsWith cs bs else false

/-- `std::string::find` for a substring: index of the first occurrence of
`c` in `w`, `none` modelling `npos`. -/
def findSubstr : List Nat → List Nat → Option Nat
  | w, c =>
    if leadsWith c w then some 0
    else
      match w with
      | [] => none
      | _ :: t => (findSubstr t c).map (· + 1)

/-- Does `c` occur anywhere in `w` (claim-side companion of `findSubstr`)? -/
def containsSubstr : List Nat → List Nat → Bool
  | w, c =>
    if leadsWith c w then true
    else
      match w with
      | [] => false
      | _ :: t => containsSubstr t c

/-- `std::string::replace(idx, len, nl)`: splice `nl` over the `len` bytes
at position `idx`. -/
def replaceAt (w : List Nat) (idx len : Nat) (nl : List Nat) : List Nat :=
  w.take idx ++ nl ++ w.drop (idx + len)

/-- Replace the first occurrence of `c` in `w` by `nl` (claim-side direct
recursion; leaves `w` unchanged when `c` does not occur). -/
def substFirst : List Nat → List Nat → List Nat → List Nat
  | w, c, nl =>
    if leadsWith c w then nl ++ w.drop c.length
    else
      match w with
      | [] => []
      | b :: t => b :: substFirst t c nl

/-- The `mongolian_letters` alphabet of `serve_multiple_choice_lesson`
(src/main.cpp lines 300-302), as UTF-8 byte pairs. -/
def mongolianLetters : List (List Nat) :=
  [[0xD0, 0xB0], [0xD0, 0xB1], [0xD0, 0xB2], [0xD0, 0xB3], [0xD0, 0xB4],
   [0xD0, 0xB5], [0xD1, 0x91], [0xD0, 0xB6], [0xD0, 0xB7], [0xD0, 0xB8],
   [0xD0, 0xB9], [0xD0, 0xBA], [0xD0, 0xBB], [0xD0, 0xBC], [0xD0, 0xBD],
   [0xD0, 0xBE], [0xD3, 0xA9], [0xD0, 0xBF], [0xD1, 0x80], [0xD1, 0x81],
   [0xD1, 0x82], [0xD1, 0x83], [0xD2, 0xAF], [0xD1, 0x84], [0xD1, 0x85],
   [0xD1, 0x86], [0xD1, 0x87], [0xD1, 0x88], [0xD1, 0x89], [0xD1, 0x8A],
   [0xD1, 0x8B], [0xD1, 0x8C], [0xD1, 0x8D], [0xD1, 0x8E], [0xD1, 0x8F]]

/-- Inner substitution loop of the distractor generation
(src/main.cpp lines 316-333).  `cands` is the shuffled candidate-character
vector in consumption order (`back()`/`pop_back()` walks the vector from its
back, so this list is the reverse of the shuffled vector); `picks k` is the
front of the freshly shuffled alphabet at the k-th shuffle, i.e. the k-th
random replacement letter; `w` is `incorrect_word`.  `none` models the loop
reaching `shuffled_target_chars.back()` on an empty vector (undefined
behaviour in the C++). -/
def distractorLoop (picks : Nat → List Nat) : Nat → Nat → List (List Nat) → List Nat → Option (List Nat)
  | _, 0, _, w => some w
  | _, _ + 1, [], _ => none
  | k, amount + 1, c :: rest, w =>
    match findSubstr w c with
    | none => distractorLoop picks k (amount + 1) rest w
    | some idx =>
      if c = [32] then distractorLoop picks k (amount + 1) rest w
      else if picks k = c then distractorLoop picks (k + 1) (amount + 1) rest w
      else distractorLoop picks (k + 1) amount rest (replaceAt w idx c.length (picks k))

/-- The same loop with each substitution phrased as in the amended claim:
skip the candidate when it does not occur in the progressively mutated
distractor built so far (or is a space); otherwise replace its first
occurrence in that mutated copy. -/
def distractorLoopMut (picks : Nat → List Nat) : Nat → Nat → List (List Nat) → List Nat → Option (List Nat)
  | _, 0, _, w => some w
  | _, _ + 1, [], _ => none
  | k, amount + 1, c :: rest, w =>
    if containsSubstr w c = false ∨ c = [32] then distractorLoopMut picks k (amount + 1) rest w
    else if picks k = c then distractorLoopMut picks (k + 1) (amount + 1) rest w
    else distractorLoopMut picks (k + 1) amount rest (substFirst w c (picks k))

/-- The loop as claim C4 states it: each substitution locates the first
occurrence of the candidate in the ORIGINAL correct word `orig` (not in the
mutated copy) and replaces the bytes at that position in the mutated copy. -/
def distractorLoopOrigTarget (orig : List Nat) (picks : Nat → List Nat) : Nat → Nat → List (List Nat) → List Nat → Option (List Nat)
  | _, 0, _, w => some w
  | _, _ + 1, [], _ => none
  | k, amount + 1, c :: rest, w =>
    match findSubstr orig c with
    | none => distractorLoopOrigTarget orig picks k (amount + 1) rest w
    | some idx =>
      if c = [32] then distractorLoopOrigTarget orig picks k (amount + 1) rest w
      else if picks k = c then distractorLoopOrigTarget orig picks (k + 1) (amount + 1) rest w
      else distractorLoopOrigTarget orig picks (k + 1) amount rest (replaceAt w idx c.length (picks k))

/-- One distractor of `serve_multiple_choice_lesson` (src/main.cpp lines
309-335): start from the correct word, run the substitution loop with budget
`amount` (drawn from `uniform_int_distribution(2, min(size, 4))`) over the
shuffled candidate vector `shuffled`. -/
def genDistractor (word : List Nat) (shuffled : List (List Nat)) (amount : Nat) (picks : Nat → List Nat) : Option (List Nat) :=
  distractorLoop picks 0 amount shuffled.reverse word

/-- The distractor generation as claim C4 reads it (substitutions target the
original word). -/
def genDistractorOrigTarget (word : List Nat) (shuffled : List (List Nat)) (amount : Nat) (picks : Nat → List Nat) : Option (List Nat) :=
  distractorLoopOrigTarget word picks 0 amount shuffled.reverse word

/-- Replacement-letter stream for the C2 run: first pick is б, later picks а. -/
def picksSwap (k : Nat) : List Nat :=
  if k = 0 then [0xD0, 0xB1] else [0xD0, 0xB0]

/-- Replacement-letter stream for the C3 run: always а. -/
def picksConstA (_ : Nat) : List Nat :=
  [0xD0, 0xB0]

/-- Replacement-letter stream for the C4 run: first pick is х, later picks ю. -/
def picksXY (k : Nat) : List Nat :=
  if k = 0 then [0xD1, 0x85] else [0xD1, 0x8E]

/-- One lesson entry (src/main.cpp lines 20-28). -/
structure LessonEntry where
  lesson_number : Nat
  word : List Nat
  description : List Nat
  origin_word : List Nat
deriving DecidableEq, Repr

/-- `read_lesson_from_file` (src/main.cpp lines 183-218) over the list of
lines of the file.  Returns the entries in file order together with the
number of diagnostic messages printed for skipped lines (too few fields,
`std::stoi` failure, lesson number out of [0,255]); lines skipped by the
lesson filter produce no diagnostic. -/
def readLessonFromLines : List (List Nat) → Option Nat → List LessonEntry × Nat
  | [], _ => ([], 0)
  | line :: rest, f =>
    let words := splitCpp line 59
    let r := readLessonFromLines rest f
    if words.length < 4 then (r.1, r.2 + 1)
    else
      match stoiBytes (words.headD []) with
      | none => (r.1, r.2 + 1)
      | some v =>
        if v < 0 ∨ 255 < v then (r.1, r.2 + 1)
        else
          match f with
          | some u =>
            if v.toNat ≠ u then (r.1, r.2)
            else (⟨v.toNat, words.getD 1 [], words.getD 2 [], words.getD 3 []⟩ :: r.1, r.2)
          | none => (⟨v.toNat, words.getD 1 [], words.getD 2 [], words.getD 3 []⟩ :: r.1, r.2)

/-- Claim-side per-line contract of the loader: a line yields an entry
exactly when it has at least 4 `;`-separated fields, its first field parses
as an integer in [0,255], and it passes the optional lesson filter; the
entry takes fields 1, 2, 3 verbatim. -/
def lineToEntry (f : Option Nat) (line : List Nat) : Option LessonEntry :=
  let ws := splitCpp line 59
  if 4 ≤ ws.length then
    match stoiBytes (ws.headD []) with
    | some v =>
      if 0 ≤ v ∧ v ≤ 255 then
        match f with
        | some u => if v.toNat = u then some ⟨v.toNat, ws.getD 1 [], ws.getD 2 [], ws.getD 3 []⟩ else none
        | none => some ⟨v.toNat, ws.getD 1 [], ws.getD 2 [], ws.getD 3 []⟩
      else none
    | none => none
  else none

/-- Claim-side predicate: a line the loader must skip with a diagnostic
(fewer than 4 fields, or first field unparsable or out of [0,255]). -/
def lineBad (line : List Nat) : Bool :=
  let ws := splitCpp line 59
  decide (ws.length < 4) ||
    match stoiBytes (ws.headD []) with
    | none => true
    | some v => decide (v < 0) || decide (255 < v)

/-- The three-line example file of the claims. -/
def exLines : List (List Nat) :=
  [ascii "1;apple;fruit;alim", ascii "bad;line", ascii "2;tree;plant;mod"]

/-- Entry produced by the first example line. -/
def appleEntry : LessonEntry :=
  ⟨1, ascii "apple", ascii "fruit", ascii "alim"⟩

/-- Entry produced by the third example line. -/
def treeEntry : LessonEntry :=
  ⟨2, ascii "tree", ascii "plant", ascii "mod"⟩

/-- The byte string "quit". -/
def quitBytes : List Nat := [113, 117, 105, 116]

/-- The byte string "hint". -/
def hintBytes : List Nat := [104, 105, 110, 116]

/-- Terminal outcome of a hangman session, carrying the final guess state and
the number of "Wrong!" messages printed.  `success`/`quitFail` refine the
C++ `bool` return value (`true`/`false`); `noMoreInput` marks the loop still
waiting on `std::getline` after the modelled input lines ran out. -/
inductive HRes where
  | success (guess : List (List Nat)) (wrongs : Nat)
  | quitFail (guess : List (List Nat)) (wrongs : Nat)
  | noMoreInput (guess : List (List Nat)) (wrongs : Nat)
deriving DecidableEq, Repr

/-- The body of the `if (input.empty() > 0)` block of `serve_hangman_lesson`
(src/main.cpp lines 277-288): reveal every slot whose target character
equals the guess; print "Wrong!" when none matched. -/
def revealStep (tchars : List (List Nat)) (inp : List Nat) (guess : List (List Nat)) (wrongs : Nat) : List (List Nat) × Nat :=
  let g := (tchars.zip guess).map (fun p => if p.1 = inp then inp else p.2)
  if tchars.any (fun c => c = inp) then (g, wrongs) else (g, wrongs + 1)

/-- The read-evaluate loop of `serve_hangman_lesson` (src/main.cpp lines
251-294).  The guard of the reveal block is the source's `input.empty() > 0`,
which (input being non-empty at that point) never holds. -/
def hangmanLoop (target : List Nat) (tchars : List (List Nat)) : List (List Nat) → List (List Nat) → Nat → HRes
  | ins, guess, wrongs =>
    if 95 ∈ guess.flatten then
      match ins with
      | [] => .noMoreInput guess wrongs
      | input :: rest =>
        if input = [] then hangmanLoop target tchars rest guess wrongs
        else
          let inp := toLowerStr input
          if inp = quitBytes then .quitFail guess wrongs
          else if inp = target then .success guess wrongs
          else
            let p := if inp.isEmpty then revealStep tchars inp guess wrongs else (guess, wrongs)
            if 95 ∈ p.1.flatten then hangmanLoop target tchars rest p.1 p.2
            else .success p.1 p.2
    else .success guess wrongs

/-- `serve_hangman_lesson` (src/main.cpp lines 226-297) on the entry's word
and a list of input lines: lowercase the word, segment it, blank every
non-space slot, then run the loop. -/
def hangmanRun (word : List Nat) (ins : List (List Nat)) : HRes :=
  let target := toLowerStr word
  let tchars := splitChars target
  let guess := tchars.map (fun c => if c = [32] then [32] else [95])
  hangmanLoop target tchars ins guess 0

/-- Terminal outcome of a spelling session, carrying how many times the
description was displayed (the "hint" count). -/
inductive SpRes where
  | success (hints : Nat)
  | quitFail (hints : Nat)
  | noMoreInput (hints : Nat)
deriving DecidableEq, Repr

/-- The read-evaluate loop of `serve_spelling_lesson` (src/main.cpp lines
395-423): empty input re-prompts, "hint" shows the description, "quit"
reveals the word and fails, a lowercased match succeeds, anything else
re-prompts. -/
def spellingLoop (target : List Nat) : List (List Nat) → Nat → SpRes
  | [], hints => .noMoreInput hints
  | input :: rest, hints =>
    if input = [] then spellingLoop target rest hints
    else
      let inp := toLowerStr input
      if inp = hintBytes then spellingLoop target rest (hints + 1)
      else if inp = quitBytes then .quitFail hints
      else if inp = target then .success hints
      else spellingLoop target rest hints

/-- `serve_spelling_lesson` (src/main.cpp lines 388-424) on the entry's word
and a list of input lines. -/
def spellingRun (word : List Nat) (ins : List (List Nat)) : SpRes :=
  spellingLoop (toLowerStr word) ins 0

/-- Terminal outcome of the multiple-choice answer loop.  `success` is the
correct guess, `wrongFail` a wrong but valid numeric guess (reveals the
correct position and the word), `quitFail` the "quit" token (reveals the
word). -/
inductive MCRes where
  | success
  | wrongFail
  | quitFail
  | noMoreInput
deriving DecidableEq, Repr

/-- The answer loop of `serve_multiple_choice_lesson` (src/main.cpp lines
348-383): empty input re-prompts, "quit" fails, `std::stoi` failure
re-prompts, a number outside [1,4] re-prompts, and the first valid numeric
choice terminates the session one way or the other. -/
def mcLoop (correct : Int) : List (List Nat) → MCRes
  | [] => .noMoreInput
  | input :: rest =>
    if input = [] then mcLoop correct rest
    else if input = quitBytes then .quitFail
    else
      match stoiBytes input with
      | none => mcLoop correct rest
      | some choice =>
        if choice < 1 ∨ 4 < choice then mcLoop correct rest
        else if choice = correct then .success
        else .wrongFail

theorem charLen_of_ascii : ∀ b < 0x80, charLen b = 1 := by decide

set_option maxRecDepth 4000 in
theorem charLen_of_two : ∀ b < 0xE0, 0xC2 ≤ b → charLen b = 2 := by decide

set_option maxRecDepth 4000 in
theorem charLen_of_three : ∀ b < 0xF0, 0xE0 ≤ b → charLen b = 3 := by decide

set_option maxRecDepth 4000 in
theorem charLen_of_four : ∀ b < 0xF5, 0xF0 ≤ b → charLen b = 4 := by decide

theorem charLen_of_invalidLead (b : Nat) (h : isInvalidLead b = true) : charLen b = 1 := by
  simp only [isInvalidLead, Bool.and_eq_true, Bool.not_eq_true', decide_eq_false_iff_not] at h
  simp [charLen, h.1.1.1, h.1.1.2, h.1.2, h.2]

theorem splitCharsF_flatten : ∀ (fuel : Nat) (bs : List Nat), bs.length ≤ fuel →
    (splitCharsF fuel bs).flatten = bs := by
  intro fuel
  induction fuel with
  | zero =>
    intro bs h
    have : bs = [] := List.eq_nil_of_length_eq_zero (Nat.le_zero.mp h)
    simp [this, splitCharsF]
  | succ f ih =>
    intro bs h
    cases bs with
    | nil => simp [splitCharsF]
    | cons b rest =>
      have hlen : (rest.drop (charLen b - 1)).length ≤ f := by
        have := List.length_drop (charLen b - 1) rest
        simp at h
        omega
      simp [splitCharsF, ih _ hlen]

theorem splitChars_flatten (bs : List Nat) : (splitChars bs).flatten = bs :=
  splitCharsF_flatten bs.length bs le_rfl

theorem splitCharsF_chunks : ∀ (cs : List (List Nat)) (fuel : Nat),
    (∀ c ∈ cs, isUtf8Char c = true) → cs.flatten.length ≤ fuel →
    splitCharsF fuel cs.flatten = cs := by
  intro cs
  induction cs with
  | nil => intro fuel _ _; simp [splitCharsF]
  | cons c cs ih =>
    intro fuel hok hlen
    have hc : isUtf8Char c = true := hok c (by simp)
    have hok' : ∀ c ∈ cs, isUtf8Char c = true := fun c hmem => hok c (by simp [hmem])
    rcases c with _ | ⟨b, _ | ⟨c1, _ | ⟨c2, _ | ⟨c3, _ | _⟩⟩⟩⟩
    · simp [isUtf8Char] at hc
    · -- one-byte character
      simp only [isUtf8Char, decide_eq_true_eq] at hc
      simp only [List.flatten_cons, List.cons_append, List.nil_append] at hlen ⊢
      cases fuel with
      | zero => simp at hlen
      | succ f =>
        simp only [List.length_cons] at hlen
        simp [splitCharsF, charLen_of_ascii b (by omega), ih f hok' (by omega)]
    · -- two-byte character
      simp only [isUtf8Char, isContB, Bool.and_eq_true, decide_eq_true_eq] at hc
      simp only [List.flatten_cons, List.cons_append, List.nil_append] at hlen ⊢
      cases fuel with
      | zero => simp at hlen
      | succ f =>
        simp only [List.length_cons] at hlen
        simp [splitCharsF, charLen_of_two b (by omega) (by omega), ih f hok' (by omega)]
    · -- three-byte character
      simp only [isUtf8Char, isContB, Bool.and_eq_true, decide_eq_true_eq] at hc
      simp only [List.flatten_cons, List.cons_append, List.nil_append] at hlen ⊢
      cases fuel with
      | zero => simp at hlen
      | succ f =>
        simp only [List.length_cons] at hlen
        simp [splitCharsF, charLen_of_three b (by omega) (by omega), ih f hok' (by omega)]
    · -- four-byte character
      simp only [isUtf8Char, isContB, Bool.and_eq_true, decide_eq_true_eq] at hc
      simp only [List.flatten_cons, List.cons_append, List.nil_append] at hlen ⊢
      cases fuel with
      | zero => simp at hlen
      | succ f =>
        simp only [List.length_cons] at hlen
        simp [splitCharsF, charLen_of_four b (by omega) (by omega), ih f hok' (by omega)]
    · simp [isUtf8Char] at hc

/-- C5: concatenating the substrings produced by `split_word_to_chars` in
order reconstructs the input byte string exactly (for every byte string);
on a string made of well-formed UTF-8 characters the segmenter returns
exactly those characters, one element per user-perceived character; and on a
byte that is not a valid leading byte it consumes exactly one byte as one
"character" and continues. -/
theorem c5_segmenter_reconstructs_and_counts :
    (∀ bs : List Nat, (splitChars bs).flatten = bs) ∧
    (∀ cs : List (List Nat), (∀ c ∈ cs, isUtf8Char c = true) →
      splitChars cs.flatten = cs ∧ (splitChars cs.flatten).length = cs.length) ∧
    (∀ b bs, isInvalidLead b = true → splitChars (b :: bs) = [b] :: splitChars bs) := by
  refine ⟨splitChars_flatten, fun cs hok => ?_, fun b bs hb => ?_⟩
  · have h : splitChars cs.flatten = cs := splitCharsF_chunks cs cs.flatten.length hok le_rfl
    exact ⟨h, by rw [h]⟩
  · show splitCharsF (bs.length + 1) (b :: bs) = [b] :: splitCharsF bs.length bs
    simp [splitCharsF, charLen_of_invalidLead b hb]

/-- Witness for C5 at the concrete string "ca" ++ "а" (two ASCII characters
and one two-byte character) and at the invalid lead byte 0x85. -/
theorem c5_segmenter_witness :
    splitChars ([[99], [97], [0xD0, 0xB0]] : List (List Nat)).flatten = [[99], [97], [0xD0, 0xB0]] ∧
    splitChars (0x85 :: [97]) = [0x85] :: splitChars [97] := by
  constructor
  · exact (c5_segmenter_reconstructs_and_counts.2.1 [[99], [97], [0xD0, 0xB0]] (by decide)).1
  · exact c5_segmenter_reconstructs_and_counts.2.2 0x85 [97] (by decide)

theorem splitCpp_ne_nil : ∀ (s : List Nat) (d : Nat), splitCpp s d ≠ [] := by
  intro s d
  induction s with
  | nil => simp [splitCpp]
  | cons b rest ih =>
    simp only [splitCpp]
    split
    · simp
    · match h : splitCpp rest d with
      | [] => simp
      | t :: ts => simp

theorem splitCpp_length : ∀ (s : List Nat) (d : Nat),
    (splitCpp s d).length = s.count d + 1 := by
  intro s d
  induction s with
  | nil => simp [splitCpp]
  | cons b rest ih =>
    simp only [splitCpp]
    split
    · rename_i hb
      simp [List.count_cons, hb, ih]
    · rename_i hb
      match h : splitCpp rest d with
      | [] => exact absurd h (splitCpp_ne_nil rest d)
      | t :: ts =>
        rw [h] at ih
        simp only [List.length_cons] at ih
        simp [List.count_cons, hb, ih]

theorem splitCpp_joinWith : ∀ (s : List Nat) (d : Nat),
    joinWithByte d (splitCpp s d) = s := by
  intro s d
  induction s with
  | nil => simp [splitCpp, joinWithByte]
  | cons b rest ih =>
    simp only [splitCpp]
    split
    · rename_i hb
      match h : splitCpp rest d with
      | [] => exact absurd h (splitCpp_ne_nil rest d)
      | t :: ts =>
        rw [h] at ih
        simp [joinWithByte, ← ih, hb]
    · match h : splitCpp rest d with
      | [] => exact absurd h (splitCpp_ne_nil rest d)
      | [t] =>
        rw [h] at ih
        simp only [joinWithByte] at ih ⊢
        simp [ih]
      | t :: t2 :: ts =>
        rw [h] at ih
        simp only [joinWithByte] at ih ⊢
        simp [← ih]

/-- C10: for every byte string and delimiter, `split` returns a non-empty
token sequence whose length is one more than the number of delimiter
occurrences, and interleaving the tokens with the delimiter reconstructs the
input exactly. -/
theorem c10_split_length_and_join (s : List Nat) (d : Nat) :
    splitCpp s d ≠ [] ∧
    (splitCpp s d).length = s.count d + 1 ∧
    joinWithByte d (splitCpp s d) = s :=
  ⟨splitCpp_ne_nil s d, splitCpp_length s d, splitCpp_joinWith s d⟩

theorem findSubstr_none_iff : ∀ (w c : List Nat),
    findSubstr w c = none ↔ containsSubstr w c = false := by
  intro w c
  induction w with
  | nil =>
    simp only [findSubstr, containsSubstr]
    split <;> simp
  | cons b t ih =>
    simp only [findSubstr, containsSubstr]
    split
    · simp
    · simpa using ih

theorem replaceAt_findSubstr : ∀ (w c nl : List Nat) (i : Nat),
    findSubstr w c = some i → replaceAt w i c.length nl = substFirst w c nl := by
  intro w
  induction w with
  | nil =>
    intro c nl i h
    by_cases hl : leadsWith c [] = true
    · have hc : c = [] := by
        cases c with
        | nil => rfl
        | cons x xs => simp [leadsWith] at hl
      subst hc
      simp only [findSubstr, hl, if_pos, Option.some.injEq] at h
      subst h
      simp [replaceAt, substFirst, hl]
    · simp [findSubstr, hl] at h
  | cons b t ih =>
    intro c nl i h
    simp only [findSubstr] at h
    by_cases hl : leadsWith c (b :: t) = true
    · rw [if_pos hl] at h
      obtain rfl : (0 : Nat) = i := Option.some.injEq _ _ |>.mp h
      simp [replaceAt, substFirst, hl]
    · rw [if_neg hl] at h
      obtain ⟨j, hj, rfl⟩ := Option.map_eq_some'.mp h
      simp only [substFirst, hl, if_neg, Bool.false_eq_true, not_false_iff]
      rw [← ih c nl j hj]
      simp only [replaceAt, List.take_succ_cons]
      have harith : j + 1 + c.length = (j + c.length) + 1 := by omega
      rw [harith, List.drop_succ_cons, List.cons_append, List.cons_append]

/-- C4 (amended): each individual substitution of the distractor loop
locates its target position as the first occurrence of the selected
character substring in the progressively mutated distractor built so far
(not in the original correct word), and replaces that occurrence: the code's
loop coincides with the mutated-copy-targeting loop on all inputs. -/
theorem c4_substitution_targets_mutated_copy (picks : Nat → List Nat) :
    ∀ (cands : List (List Nat)) (k amount : Nat) (w : List Nat),
    distractorLoop picks k amount cands w = distractorLoopMut picks k amount cands w := by
  intro cands
  induction cands with
  | nil =>
    intro k amount w
    cases amount <;> simp [distractorLoop, distractorLoopMut]
  | cons c rest ih =>
    intro k amount w
    cases amount with
    | zero => simp [distractorLoop, distractorLoopMut]
    | succ a =>
      rcases h : findSubstr w c with _ | idx
      · have hc : containsSubstr w c = false := (findSubstr_none_iff w c).mp h
        simp [distractorLoop, distractorLoopMut, h, hc, ih]
      · have hc : ¬containsSubstr w c = false := by
          intro hf
          rw [← findSubstr_none_iff] at hf
          simp [h] at hf
        by_cases hsp : c = [32]
        · simp [distractorLoop, distractorLoopMut, h, hsp, ih]
          cases findSubstr w [32] <;> rfl
        · by_cases hpk : picks k = c
          · simp [distractorLoop, distractorLoopMut, h, hc, hsp, hpk, ih]
          · simp [distractorLoop, distractorLoopMut, h, hc, hsp, hpk, ih,
              replaceAt_findSubstr w c (picks k) idx h]

/-- C4 counterexample: for the word "аа" (two identical characters), budget
2 (the only value `uniform_int_distribution(2, min(2,4))` can draw), the
identity shuffle and replacement picks х then ю (both alphabet letters
distinct from а), the code produces "хю" — the second substitution replaced
the occurrence of а found in the mutated copy "ха" — while the loop that
locates each occurrence in the ORIGINAL word (as the claim states) produces
"юа".  The two disagree, so substitutions do not target the original word. -/
theorem c4_substitution_targets_differ :
    splitChars [0xD0, 0xB0, 0xD0, 0xB0] = [[0xD0, 0xB0], [0xD0, 0xB0]] ∧
    picksXY 0 ∈ mongolianLetters ∧ picksXY 1 ∈ mongolianLetters ∧
    genDistractor [0xD0, 0xB0, 0xD0, 0xB0] [[0xD0, 0xB0], [0xD0, 0xB0]] 2 picksXY
      = some [0xD1, 0x85, 0xD1, 0x8E] ∧
    genDistractorOrigTarget [0xD0, 0xB0, 0xD0, 0xB0] [[0xD0, 0xB0], [0xD0, 0xB0]] 2 picksXY
      = some [0xD1, 0x8E, 0xD0, 0xB0] ∧
    genDistractor [0xD0, 0xB0, 0xD0, 0xB0] [[0xD0, 0xB0], [0xD0, 0xB0]] 2 picksXY
      ≠ genDistractorOrigTarget [0xD0, 0xB0, 0xD0, 0xB0] [[0xD0, 0xB0], [0xD0, 0xB0]] 2 picksXY := by
  decide

/-- C2 is violated by the code: for the correct word "аб" (2 segmented
characters, both alphabet letters), the forced budget 2, the shuffled
candidate vector [б, а] (consumed from the back: а first), and replacement
picks б then а, the generated distractor IS the correct word "аб" — the
first substitution turns "аб" into "бб" and the second turns it back.  So a
distractor need not differ from the correct word, and the number of
differing segmented positions (here 0) need not be ≥ 2. -/
theorem c2_distractor_can_equal_correct_word :
    splitChars [0xD0, 0xB0, 0xD0, 0xB1] = [[0xD0, 0xB0], [0xD0, 0xB1]] ∧
    ([[0xD0, 0xB1], [0xD0, 0xB0]] : List (List Nat)).Perm (splitChars [0xD0, 0xB0, 0xD0, 0xB1]) ∧
    2 ≤ min (splitChars [0xD0, 0xB0, 0xD0, 0xB1]).length 4 ∧
    picksSwap 0 ∈ mongolianLetters ∧ picksSwap 1 ∈ mongolianLetters ∧
    genDistractor [0xD0, 0xB0, 0xD0, 0xB1] [[0xD0, 0xB1], [0xD0, 0xB0]] 2 picksSwap
      = some [0xD0, 0xB0, 0xD0, 0xB1] := by
  decide

/-- C3 is violated by the code: for the lesson word " x" (2 segmented
characters, one of them a space), the forced budget 2, the shuffled
candidate vector [x, space] (consumed from the back: the space first) and a
constant alphabet pick а, the space candidate is skipped without decrementing
the budget, the candidate vector empties with budget 1 remaining, and the
next iteration reads `back()` of the empty vector (`none`, undefined
behaviour in the C++): the loop does not perform all budgeted substitutions. -/
theorem c3_distractor_loop_underflows :
    splitChars [32, 120] = [[32], [120]] ∧
    ([[120], [32]] : List (List Nat)).Perm (splitChars [32, 120]) ∧
    2 ≤ min (splitChars [32, 120]).length 4 ∧
    picksConstA 0 ∈ mongolianLetters ∧
    genDistractor [32, 120] [[120], [32]] 2 picksConstA = none := by
  decide

/-- C1 is violated by the code: the reveal block of `serve_hangman_lesson`
is guarded by `input.empty() > 0`, which is false for every non-empty input,
so it never runs.  For the target "cat", guessing "a" leaves the guess
string "___" (not "_a_" as the claim states), and a non-matching guess "z"
prints no "Wrong!" (the wrong-counter stays 0).  In both cases the loop just
re-prompts. -/
theorem c1_hangman_reveal_unreachable :
    hangmanRun [99, 97, 116] [[97]] = .noMoreInput [[95], [95], [95]] 0 ∧
    hangmanRun [99, 97, 116] [[97]] ≠ .noMoreInput [[95], [97], [95]] 0 ∧
    hangmanRun [99, 97, 116] [[122]] = .noMoreInput [[95], [95], [95]] 0 := by
  decide

/-- C8: for the Spelling engine with target word "Apple", the input sequence
["hint", "APPLE"] yields success with the description displayed exactly once
(the hint does not count as a guess), ["quit"] yields the failure outcome
immediately; and in general a single non-hint, non-quit answer succeeds
exactly when it equals the word up to lowercasing. -/
theorem c8_spelling_hint_success_quit :
    spellingRun (ascii "Apple") [ascii "hint", ascii "APPLE"] = .success 1 ∧
    spellingRun (ascii "Apple") [ascii "quit"] = .quitFail 0 ∧
    (∀ (w input : List Nat), input ≠ [] → toLowerStr input ≠ hintBytes →
      toLowerStr input ≠ quitBytes →
      (spellingRun w [input] = .success 0 ↔ toLowerStr input = toLowerStr w)) := by
  refine ⟨by decide, by decide, fun w input h1 h2 h3 => ?_⟩
  by_cases he : toLowerStr input = toLowerStr w
  · rw [he] at h2 h3
    simp [spellingRun, spellingLoop, h1, h2, h3, he]
  · simp [spellingRun, spellingLoop, h1, h2, h3, he]

/-- Witness for C8: "CAT" is accepted for the word "Cat". -/
theorem c8_spelling_witness :
    spellingRun (ascii "Cat") [ascii "CAT"] = SpRes.success 0 :=
  (c8_spelling_hint_success_quit.2.2 (ascii "Cat") (ascii "CAT")
    (by decide) (by decide) (by decide)).mpr (by decide)

/-- C9: in the Multiple-Choice engine, the first input that is a valid
numeric choice in [1,4] is terminal — success exactly when it equals the
recorded correct position, failure immediately otherwise; empty, non-numeric
and out-of-range inputs only re-prompt; "quit" terminates with the
quit/failure outcome. -/
theorem c9_mc_first_valid_choice_terminal (correct : Int) (input : List Nat) (ins : List (List Nat)) :
    (∀ n : Int, input ≠ [] → input ≠ quitBytes → stoiBytes input = some n →
      1 ≤ n → n ≤ 4 →
      mcLoop correct (input :: ins) = if n = correct then MCRes.success else MCRes.wrongFail) ∧
    mcLoop correct ([] :: ins) = mcLoop correct ins ∧
    (input ≠ [] → input ≠ quitBytes → stoiBytes input = none →
      mcLoop correct (input :: ins) = mcLoop correct ins) ∧
    (∀ n : Int, input ≠ [] → input ≠ quitBytes → stoiBytes input = some n →
      (n < 1 ∨ 4 < n) → mcLoop correct (input :: ins) = mcLoop correct ins) ∧
    mcLoop correct (quitBytes :: ins) = MCRes.quitFail := by
  refine ⟨fun n h1 h2 h3 h4 h5 => ?_, by simp [mcLoop], fun h1 h2 h3 => ?_,
    fun n h1 h2 h3 h4 => ?_, by simp [mcLoop, quitBytes]⟩
  · have hr : ¬(n < 1 ∨ 4 < n) := by omega
    simp [mcLoop, h1, h2, h3, hr]
  · simp [mcLoop, h1, h2, h3]
  · simp [mcLoop, h1, h2, h3, h4]

/-- Witness for C9: with correct position 2, answering "3" fails at once. -/
theorem c9_mc_witness : mcLoop 2 [ascii "3"] = MCRes.wrongFail := by
  have h := (c9_mc_first_valid_choice_terminal 2 (ascii "3") []).1 3
    (by decide) (by decide) (by decide) (by decide) (by decide)
  simpa using h

theorem readLesson_entries_filterMap : ∀ (lines : List (List Nat)) (f : Option Nat),
    (readLessonFromLines lines f).1 = lines.filterMap (lineToEntry f) := by
  intro lines f
  induction lines with
  | nil => simp [readLessonFromLines]
  | cons line rest ih =>
    by_cases h4 : (splitCpp line 59).length < 4
    · have h4' : ¬4 ≤ (splitCpp line 59).length := by omega
      simp [readLessonFromLines, lineToEntry, h4, h4', ih]
    · have h4' : 4 ≤ (splitCpp line 59).length := by omega
      rcases hs : stoiBytes ((splitCpp line 59).head?.getD []) with _ | v
      · simp [readLessonFromLines, lineToEntry, h4, h4', hs, ih]
      · by_cases hv : v < 0 ∨ 255 < v
        · have hv' : ¬(0 ≤ v ∧ v ≤ 255) := by omega
          simp [readLessonFromLines, lineToEntry, h4, h4', hs, hv, hv', ih]
        · have hv' : 0 ≤ v ∧ v ≤ 255 := by omega
          cases f with
          | none => simp [readLessonFromLines, lineToEntry, h4, h4', hs, hv, hv', ih]
          | some u =>
            by_cases hu : v.toNat = u
            · simp [readLessonFromLines, lineToEntry, h4, h4', hs, hv, hv', hu, ih]
            · simp [readLessonFromLines, lineToEntry, h4, h4', hs, hv, hv', hu, ih]

theorem readLesson_warnings_countP : ∀ (lines : List (List Nat)) (f : Option Nat),
    (readLessonFromLines lines f).2 = lines.countP lineBad := by
  intro lines f
  induction lines with
  | nil => simp [readLessonFromLines]
  | cons line rest ih =>
    by_cases h4 : (splitCpp line 59).length < 4
    · simp [readLessonFromLines, lineBad, h4, List.countP_cons, ih]
    · rcases hs : stoiBytes ((splitCpp line 59).head?.getD []) with _ | v
      · simp [readLessonFromLines, lineBad, h4, hs, List.countP_cons, ih]
      · by_cases hv : v < 0 ∨ 255 < v
        · have hb : lineBad line = true := by
            simp [lineBad, hs]
            omega
          simp [readLessonFromLines, h4, hs, hv, List.countP_cons, hb, ih]
        · have hb : lineBad line = false := by
            simp [lineBad, hs]
            omega
          cases f with
          | none => simp [readLessonFromLines, h4, hs, hv, List.countP_cons, hb, ih]
          | some u =>
            by_cases hu : v.toNat = u <;>
              simp [readLessonFromLines, h4, hs, hv, hu, List.countP_cons, hb, ih]

theorem readLesson_filter_commute : ∀ (lines : List (List Nat)) (u : Nat),
    (readLessonFromLines lines (some u)).1
      = (readLessonFromLines lines none).1.filter (fun e => e.lesson_number == u) := by
  intro lines u
  induction lines with
  | nil => simp [readLessonFromLines]
  | cons line rest ih =>
    by_cases h4 : (splitCpp line 59).length < 4
    · simp [readLessonFromLines, h4, ih]
    · rcases hs : stoiBytes ((splitCpp line 59).head?.getD []) with _ | v
      · simp [readLessonFromLines, h4, hs, ih]
      · by_cases hv : v < 0 ∨ 255 < v
        · simp [readLessonFromLines, h4, hs, hv, ih]
        · by_cases hu : v.toNat = u
          · simp [readLessonFromLines, h4, hs, hv, hu, ih]
          · simp [readLessonFromLines, h4, hs, hv, hu, ih]

theorem lineToEntry_fields : ∀ (f : Option Nat) (line : List Nat) (e : LessonEntry),
    lineToEntry f line = some e →
    4 ≤ (splitCpp line 59).length ∧
    stoiBytes ((splitCpp line 59).headD []) = some (e.lesson_number : Int) ∧
    e.word = (splitCpp line 59).getD 1 [] ∧
    e.description = (splitCpp line 59).getD 2 [] ∧
    e.origin_word = (splitCpp line 59).getD 3 [] := by
  intro f line e h
  cases f with
  | none =>
    simp only [lineToEntry] at h
    by_cases h4 : 4 ≤ (splitCpp line 59).length
    · rw [if_pos h4] at h
      rcases hs : stoiBytes ((splitCpp line 59).headD []) with _ | v
      · rw [hs] at h
        simp at h
      · rw [hs] at h
        simp at h
        obtain ⟨hv, rfl⟩ := h
        have hval : (v.toNat : Int) = v := Int.toNat_of_nonneg hv.1
        refine ⟨h4, by simp [hval], by simp, by simp, by simp⟩
    · rw [if_neg h4] at h
      exact absurd h (by simp)
  | some u =>
    simp only [lineToEntry] at h
    by_cases h4 : 4 ≤ (splitCpp line 59).length
    · rw [if_pos h4] at h
      rcases hs : stoiBytes ((splitCpp line 59).headD []) with _ | v
      · rw [hs] at h
        simp at h
      · rw [hs] at h
        simp at h
        obtain ⟨hv, hu, rfl⟩ := h
        have hval : (v.toNat : Int) = v := Int.toNat_of_nonneg hv.1
        refine ⟨h4, by simp [hval], by simp, by simp, by simp⟩
    · rw [if_neg h4] at h
      exact absurd h (by simp)

/-- C6: the loader skips, with a diagnostic and without aborting, exactly
those lines with fewer than 4 `;`-separated fields or whose first field does
not parse (via `std::stoi`) as an integer in [0,255]: the produced entries
are exactly the per-line contract applied to every line, the number of
diagnostics equals the number of bad lines, and the three-line example file
yields exactly the two entries for lessons 1 and 2 with one diagnostic. -/
theorem c6_loader_skips_exactly_malformed_lines (lines : List (List Nat)) :
    (readLessonFromLines lines none).1 = lines.filterMap (lineToEntry none) ∧
    (readLessonFromLines lines none).2 = lines.countP lineBad ∧
    readLessonFromLines exLines none = ([appleEntry, treeEntry], 1) :=
  ⟨readLesson_entries_filterMap lines none, readLesson_warnings_countP lines none, by decide⟩

/-- C7: with a lesson filter set, the loader returns exactly the unfiltered
entries whose lesson number equals the filter (in the same relative order,
and with no extra diagnostics for the filtered-out lines); every returned
entry carries the filter's lesson number and takes its word, description and
origin word verbatim from fields 1, 2, 3 of some source line; filtering the
example file by lesson 1 yields exactly the apple entry. -/
theorem c7_loader_filter_order_verbatim (lines : List (List Nat)) (u : Nat) :
    (readLessonFromLines lines (some u)).1
      = (readLessonFromLines lines none).1.filter (fun e => e.lesson_number == u) ∧
    (readLessonFromLines lines (some u)).2 = (readLessonFromLines lines none).2 ∧
    (∀ e ∈ (readLessonFromLines lines (some u)).1, e.lesson_number = u) ∧
    (∀ e ∈ (readLessonFromLines lines (some u)).1, ∃ line ∈ lines,
      4 ≤ (splitCpp line 59).length ∧
      stoiBytes ((splitCpp line 59).headD []) = some (e.lesson_number : Int) ∧
      e.word = (splitCpp line 59).getD 1 [] ∧
      e.description = (splitCpp line 59).getD 2 [] ∧
      e.origin_word = (splitCpp line 59).getD 3 []) ∧
    readLessonFromLines exLines (some 1) = ([appleEntry], 1) := by
  refine ⟨readLesson_filter_commute lines u, ?_, ?_, ?_, by decide⟩
  · rw [readLesson_warnings_countP lines (some u), readLesson_warnings_countP lines none]
  · intro e he
    rw [readLesson_filter_commute lines u] at he
    simpa using (List.mem_filter.mp he).2
  · intro e he
    rw [readLesson_entries_filterMap lines (some u)] at he
    obtain ⟨line, hline, hsome⟩ := List.mem_filterMap.mp he
    exact ⟨line, hline, lineToEntry_fields (some u) line e hsome⟩

/-- Witness for C7 on the example file with filter 1: the apple entry is
returned and carries lesson number 1. -/
theorem c7_loader_witness :
    (readLessonFromLines exLines (some 1)).1 = [appleEntry] ∧
    appleEntry.lesson_number = 1 := by
  refine ⟨?_, (c7_loader_filter_order_verbatim exLines 1).2.2.1 appleEntry (by decide)⟩
  have h := (c7_loader_filter_order_verbatim exLines 1).2.2.2.2
  simpa using congrArg Prod.fst h
